import Mathlib

set_option maxRecDepth 8192

/-! Verification of the secret-storage core (encrypted key-value store,
threshold key splitting, share serialization) of the Molecule repository.

The store, persistence and share-serialization logic is embedded from
`src/silos/kv_silo.rs`. Behaviour provided by external crates (the `sharks`
threshold scheme, the `XChaCha20Poly1305` cipher, `serde_json`, file I/O) is
modelled from the specification; those definitions carry a
`Modelled from the spec:` doc comment. Rust panics (`expect`) in fallible
code are modelled as `Except.error`. -/

/-- Multiplication by the generator x in GF(2^8): shift left and reduce. -/
def xtime (a : Nat) : Nat :=
  if a < 128 then a * 2 else (a * 2) % 256 ^^^ 27

/-- Russian-peasant multiplication loop consuming `n` low bits of `b`. -/
def gmulAux : Nat → Nat → Nat → Nat
  | _, _, 0 => 0
  | a, b, n + 1 => (if b % 2 = 1 then a else 0) ^^^ gmulAux (xtime a) (b / 2) n

/-- Modelled from the spec: multiplication in GF(2^8). -/
def gmul (a b : Nat) : Nat := gmulAux a b 8

/-- Bounded boolean universal quantifier: `f` holds for every number below `n`. -/
def allB (f : Nat → Bool) : Nat → Bool
  | 0 => true
  | n + 1 => f n && allB f n

/-- Modelled from the spec: inversion in GF(2^8) as a^254 (Fermat), via a
square-and-multiply chain. -/
def ginv (a : Nat) : Nat :=
  let a3 := gmul (gmul a a) a
  let a7 := gmul (gmul a3 a3) a
  let a15 := gmul (gmul a7 a7) a
  let a31 := gmul (gmul a15 a15) a
  let a63 := gmul (gmul a31 a31) a
  let a127 := gmul (gmul a63 a63) a
  gmul a127 a127

/-- Modelled from the spec: division in GF(2^8). -/
def gdiv (a b : Nat) : Nat := gmul a (ginv b)

def wsum (f : Nat → Nat) : List Nat → Nat
  | [] => 0
  | x :: xs => f x ^^^ wsum f xs

/-- Modelled from the spec: one degree-2 polynomial per secret byte, constant
term the secret byte, evaluated at the share's x-coordinate. -/
def evalPoly (s a b x : Nat) : Nat := s ^^^ gmul a x ^^^ gmul b (gmul x x)

/-- One fragment of a threshold split: x-coordinate and one byte per secret
byte, mirroring the `Share` type used by `split_dek`/`reconstruct_dek`. -/
structure Share where
  x : Nat
  y : List Nat
deriving DecidableEq

/-- The share evaluated at abscissa `xv`, with coefficient vectors `c1`, `c2`. -/
def shareAt (dek c1 c2 : List Nat) (xv : Nat) : Share :=
  ⟨xv, (dek.zip (c1.zip c2)).map (fun p => evalPoly p.1 p.2.1 p.2.2 xv)⟩

/-- Modelled from the spec: `split_dek` splits the key with threshold 3 into 5
shares at the nonzero points 1..5; the dealer's random degree-2 polynomial
coefficients (one pair per secret byte) are explicit parameters `c1`, `c2`. -/
def split_dek (dek c1 c2 : List Nat) : List Share :=
  (List.range 5).map (fun k => shareAt dek c1 c2 (k + 1))

/-- Lagrange coefficient at 0 for abscissa `xi` within the abscissa set `xs`. -/
def lagCoeff (xs : List Nat) (xi : Nat) : Nat :=
  (xs.filter (fun xj => xj != xi)).foldr (fun xj acc => gmul (gdiv xj (xj ^^^ xi)) acc) 1

/-- Length of the first share's y-vector (the byte length of the secret). -/
def headLen (shares : List Share) : Nat :=
  match shares with
  | [] => 0
  | sh :: _ => sh.y.length

/-- Byte-wise Lagrange interpolation at 0 of a list of shares. -/
def interpolate (shares : List Share) : List Nat :=
  (List.range (headLen shares)).map (fun j =>
    shares.foldr
      (fun sh acc => gmul (lagCoeff (shares.map (fun s2 => s2.x)) sh.x) (sh.y.getD j 0) ^^^ acc) 0)

/-- All shares carry y-vectors of one common length. -/
def sameLengths (shares : List Share) : Bool :=
  match shares with
  | [] => true
  | sh :: rest => rest.all (fun s2 => s2.y.length == sh.y.length)

/-- Modelled from the spec: reconstruction requires at least 3 shares with
pairwise distinct x-coordinates and equal-length y-vectors, and interpolates
the secret; otherwise it fails (the source unwraps the library error with
`expect("Failed to recover DEK")`, modelled as `Except.error`). -/
def reconstruct_dek (shares : List Share) : Except String (List Nat) :=
  if 3 ≤ shares.length ∧ (shares.map (fun sh => sh.x)).Nodup ∧ sameLengths shares = true then
    .ok (interpolate shares)
  else
    .error "Failed to recover DEK"

def momentsOk (xs : List Nat) : Bool :=
  (wsum (lagCoeff xs) xs == 1) &&
  (wsum (fun x => gmul (lagCoeff xs x) x) xs == 0) &&
  (wsum (fun x => gmul (lagCoeff xs x) (gmul x x)) xs == 0)

def dek32 : List Nat := (List.range 32).map (fun i => (17 * i + 11) % 256)

def c1w : List Nat := (List.range 32).map (fun i => (29 * i + 5) % 256)

def c2w : List Nat := (List.range 32).map (fun i => (43 * i + 7) % 256)

def mix (acc b : Nat) : Nat := (acc * 131 + b + 1) % 65521

/-- Keystream byte `i` for the given key and nonce. -/
def ksByte (key nonce : List Nat) (i : Nat) : Nat :=
  (key.foldl mix 7 + nonce.foldl mix 11 + i * 197) % 256

/-- The first `n` keystream bytes. -/
def keystream (key nonce : List Nat) (n : Nat) : List Nat :=
  (List.range n).map (ksByte key nonce)

/-- Pointwise xor of a byte list with a keystream. -/
def xorBytes (l ks : List Nat) : List Nat := List.zipWith (fun a b => a ^^^ b) l ks

/-- The 16-byte authentication tag over the ciphertext. -/
def computeTag (key nonce ct : List Nat) : List Nat :=
  (List.range 16).map (fun i =>
    (ct.foldl (fun acc b => (acc * 251 + b + 3) % 65521) (ksByte key nonce (i + 4096)) + i) % 256)

/-- Modelled from the spec: `encrypt_data` draws a fresh random 24-byte nonce
(made an explicit parameter here), stream-encrypts the plaintext and appends
the 16-byte tag; it returns the (nonce, ciphertext) pair. -/
def encrypt_data (key plaintext nonce : List Nat) : List Nat × List Nat :=
  (nonce, xorBytes plaintext (keystream key nonce plaintext.length) ++
    computeTag key nonce (xorBytes plaintext (keystream key nonce plaintext.length)))

/-- Modelled from the spec: `decrypt_data` verifies the authentication tag and
decrypts; on tag failure the source panics via `expect("decryption failure!")`,
modelled as `Except.error`. -/
def decrypt_data (key iv data : List Nat) : Except String (List Nat) :=
  if data.length < 16 then Except.error "decryption failure!"
  else if data.drop (data.length - 16) = computeTag key iv (data.take (data.length - 16)) then
    Except.ok (xorBytes (data.take (data.length - 16))
      (keystream key iv (data.take (data.length - 16)).length))
  else Except.error "decryption failure!"

def keyW : List Nat := (List.range 32).map (fun i => (13 * i + 2) % 256)

def nonceW : List Nat := (List.range 24).map (fun i => (31 * i + 9) % 256)

/-- A concrete tampered ciphertext: the first byte of a valid encryption,
flipped. -/
def tamperedW : List Nat :=
  ((encrypt_data keyW [104, 101, 108, 108, 111] nonceW).2.headD 0 ^^^ 1) ::
    (encrypt_data keyW [104, 101, 108, 108, 111] nonceW).2.tail

/-- One stored ciphertext: nonce (`iv`) plus encrypted bytes, as in the source. -/
structure Secret where
  iv : List Nat
  encrypted_value : List Nat
deriving DecidableEq

/-- The in-memory map name → Secret; the source's HashMap is modelled as an
association list with insert-or-replace semantics. -/
abbrev KVStore := List (String × Secret)

def hmInsert (m : KVStore) (k : String) (v : Secret) : KVStore :=
  match m with
  | [] => [(k, v)]
  | (k', v') :: rest => if k' = k then (k, v) :: rest else (k', v') :: hmInsert rest k v

def hmLookup (m : KVStore) (k : String) : Option Secret :=
  match m with
  | [] => none
  | (k', v') :: rest => if k' = k then some v' else hmLookup rest k

/-- `set_secret` inserts or replaces the record and returns `Ok(())`; the new
store state is returned explicitly. -/
def set_secret (store : KVStore) (key : String) (iv encrypted_value : List Nat) :
    Except String KVStore :=
  Except.ok (hmInsert store key ⟨iv, encrypted_value⟩)

/-- `get_secret` returns a copy of the stored record, if any. -/
def get_secret (store : KVStore) (key : String) : Option Secret :=
  hmLookup store key

def encNat (n : Nat) : List Nat := List.replicate n 1 ++ [0]

def decNat : List Nat → Option (Nat × List Nat)
  | [] => none
  | 0 :: rest => some (0, rest)
  | 1 :: rest =>
    match decNat rest with
    | some (n, r) => some (n + 1, r)
    | none => none
  | _ :: _ => none

def encBytes (l : List Nat) : List Nat := encNat l.length ++ l

def decBytes (bs : List Nat) : Option (List Nat × List Nat) :=
  match decNat bs with
  | none => none
  | some (n, rest) => if n ≤ rest.length then some (rest.take n, rest.drop n) else none

def encEntry (e : String × Secret) : List Nat :=
  encBytes (e.1.data.map Char.toNat) ++ encBytes e.2.iv ++ encBytes e.2.encrypted_value

def encEntries : KVStore → List Nat
  | [] => []
  | e :: rest => encEntry e ++ encEntries rest

/-- Modelled from the spec: serialize the full map to a canonical byte
encoding. -/
def serializeStore (store : KVStore) : List Nat :=
  encNat store.length ++ encEntries store

def decEntries : Nat → List Nat → Option (KVStore × List Nat)
  | 0, rest => some ([], rest)
  | n + 1, rest =>
    match decBytes rest with
    | none => none
    | some (nameB, r1) =>
      match decBytes r1 with
      | none => none
      | some (iv, r2) =>
        match decBytes r2 with
        | none => none
        | some (ev, r3) =>
          match decEntries n r3 with
          | none => none
          | some (tail, r4) => some ((String.mk (nameB.map Char.ofNat), ⟨iv, ev⟩) :: tail, r4)

/-- Modelled from the spec: deserialize bytes into a map, failing on malformed
input. -/
def deserializeStore (bytes : List Nat) : Except String KVStore :=
  match decNat bytes with
  | none => Except.error "invalid data"
  | some (n, rest) =>
    match decEntries n rest with
    | some (entries, []) => Except.ok entries
    | _ => Except.error "invalid data"

/-- What opening a path can find: no file, an unreadable file (e.g. permission
denied), or a readable file with contents. `File::open` fails on the first two. -/
inductive FileState where
  | absent : FileState
  | denied : FileState
  | present : List Nat → FileState
deriving DecidableEq

/-- The file system, one `FileState` per path. -/
abbrev FS := String → FileState

def fsWrite (fs : FS) (path : String) (bytes : List Nat) : FS :=
  fun q => if q = path then FileState.present bytes else fs q

/-- `save_to_file_encrypted`: serialize the map, encrypt under the master key
with a fresh nonce (explicit parameter), create/truncate the file and write
`iv` then ciphertext. `File::create` fails only on an unwritable path. -/
def save_to_file_encrypted (store : KVStore) (fs : FS) (filename : String)
    (master_key nonce : List Nat) : Except String FS :=
  match fs filename with
  | FileState.denied => Except.error "create failed"
  | _ =>
    Except.ok (fsWrite fs filename
      ((encrypt_data master_key (serializeStore store) nonce).1 ++
        (encrypt_data master_key (serializeStore store) nonce).2))

/-- `load_from_file_encrypted`: any `File::open` failure is matched by
`Err(_) => return Ok(())`, leaving the store unchanged; otherwise the first 24
bytes are read as the nonce (`read_exact` fails on shorter files), the rest as
ciphertext; decrypt panics on tag failure (modelled as the error propagating);
the deserialized map replaces the whole in-memory map. -/
def load_from_file_encrypted (store : KVStore) (fs : FS) (filename : String)
    (master_key : List Nat) : Except String KVStore :=
  match fs filename with
  | FileState.absent => Except.ok store
  | FileState.denied => Except.ok store
  | FileState.present bytes =>
    if bytes.length < 24 then Except.error "read failed"
    else
      match decrypt_data master_key (bytes.take 24) (bytes.drop 24) with
      | Except.error e => Except.error e
      | Except.ok data =>
        match deserializeStore data with
        | Except.error e => Except.error e
        | Except.ok persisted => Except.ok persisted

def storeW : KVStore := [("doc", ⟨[5], [6]⟩), ("key2", ⟨[7], [8, 9]⟩)]

def fsAbsent : FS := fun _ => FileState.absent

def fsSavedW : FS :=
  fsWrite fsAbsent "p"
    ((encrypt_data keyW (serializeStore storeW) nonceW).1 ++
      (encrypt_data keyW (serializeStore storeW) nonceW).2)

def fsDeniedW : FS := fun _ => FileState.denied

def fsMixedW : FS := fun p =>
  if p = "gone" then FileState.absent
  else if p = "short" then FileState.present [1, 2, 3]
  else FileState.denied

def bytesW : List Nat :=
  (encrypt_data keyW (serializeStore storeW) nonceW).1 ++
    (encrypt_data keyW (serializeStore storeW) nonceW).2

/-- `to_bytes`: the x-coordinate byte followed by the y-vector bytes. -/
def to_bytes (s : Share) : List Nat := s.x :: s.y

/-- `from_bytes`: rejects inputs shorter than 2 bytes, else splits head/tail. -/
def from_bytes (bytes : List Nat) : Except String Share :=
  if bytes.length < 2 then Except.error "Not enough data to form a Share"
  else Except.ok ⟨bytes.headD 0, bytes.tail⟩

theorem xor_left_comm (a b c : Nat) : a ^^^ (b ^^^ c) = b ^^^ (a ^^^ c) := by
  rw [← Nat.xor_assoc, Nat.xor_comm a b, Nat.xor_assoc]

theorem xor4 (p q r s : Nat) : (p ^^^ q) ^^^ (r ^^^ s) = (p ^^^ r) ^^^ (q ^^^ s) := by
  simp only [Nat.xor_assoc]
  rw [xor_left_comm q r s]

theorem xor_mod_two_pow (x y n : Nat) : (x ^^^ y) % 2 ^ n = x % 2 ^ n ^^^ y % 2 ^ n := by
  apply Nat.eq_of_testBit_eq
  intro i
  simp only [Nat.testBit_mod_two_pow, Nat.testBit_xor]
  cases Decidable.em (i < n) with
  | inl h => simp [h]
  | inr h => simp [h]

theorem xor_mod_two (x y : Nat) : (x ^^^ y) % 2 = x % 2 ^^^ y % 2 := by
  have := xor_mod_two_pow x y 1
  simpa using this

theorem xor_div_two (x y : Nat) : (x ^^^ y) / 2 = x / 2 ^^^ y / 2 := by
  apply Nat.eq_of_testBit_eq
  intro i
  rw [← Nat.testBit_succ, Nat.testBit_xor, Nat.testBit_xor, ← Nat.testBit_succ, ← Nat.testBit_succ]

theorem double_xor (x y : Nat) : (x ^^^ y) * 2 = x * 2 ^^^ y * 2 := by
  have h : ∀ z : Nat, z * 2 = z <<< 1 := by
    intro z; rw [Nat.shiftLeft_eq]
  rw [h, h, h]
  apply Nat.eq_of_testBit_eq
  intro i
  simp only [Nat.testBit_shiftLeft, Nat.testBit_xor]
  cases Decidable.em (1 ≤ i) with
  | inl hle => simp [hle]
  | inr hle => simp [hle]

theorem xor_lt_256 {x y : Nat} (hx : x < 256) (hy : y < 256) : x ^^^ y < 256 :=
  Nat.xor_lt_two_pow (n := 8) (by omega) (by omega)

theorem testBit7_of_ge {b : Nat} (h1 : 128 ≤ b) (h2 : b < 256) : b.testBit 7 = true := by
  rw [Nat.testBit_to_div_mod]
  have h : b / 2 ^ 7 = 1 := by norm_num; omega
  rw [h]
  decide

theorem lt128_of_testBit7 {b : Nat} (h1 : b.testBit 7 = false) (h2 : b < 256) : b < 128 := by
  by_contra hge
  rw [testBit7_of_ge (by omega) h2] at h1
  simp at h1

theorem xtime_lt {a : Nat} (h : a < 256) : xtime a < 256 := by
  unfold xtime
  split
  · omega
  · exact xor_lt_256 (Nat.mod_lt _ (by omega)) (by omega)

theorem xtime_eq (a : Nat) (h : a < 256) : xtime a = a * 2 % 256 ^^^ (if a < 128 then 0 else 27) := by
  unfold xtime
  split
  · rename_i hlt
    rw [Nat.xor_zero, Nat.mod_eq_of_lt (by omega)]
  · rfl

theorem ite128_xor {a b : Nat} (ha : a < 256) (hb : b < 256) :
    (if a ^^^ b < 128 then (0 : Nat) else 27) =
      (if a < 128 then (0 : Nat) else 27) ^^^ (if b < 128 then (0 : Nat) else 27) := by
  cases Decidable.em (a < 128) with
  | inl ha128 =>
    cases Decidable.em (b < 128) with
    | inl hb128 =>
      have : a ^^^ b < 128 := Nat.xor_lt_two_pow (n := 7) (by omega) (by omega)
      simp [ha128, hb128, this]
    | inr hb128 =>
      have htb : (a ^^^ b).testBit 7 = true := by
        rw [Nat.testBit_xor, Nat.testBit_lt_two_pow (x := a) (i := 7) (by omega),
          testBit7_of_ge (by omega) hb]
        rfl
      have : ¬ (a ^^^ b < 128) := by
        have := Nat.testBit_implies_ge htb
        norm_num at this
        omega
      simp [ha128, hb128, this]
  | inr ha128 =>
    cases Decidable.em (b < 128) with
    | inl hb128 =>
      have htb : (a ^^^ b).testBit 7 = true := by
        rw [Nat.testBit_xor, testBit7_of_ge (by omega) ha,
          Nat.testBit_lt_two_pow (x := b) (i := 7) (by omega)]
        rfl
      have : ¬ (a ^^^ b < 128) := by
        have := Nat.testBit_implies_ge htb
        norm_num at this
        omega
      simp [ha128, hb128, this]
    | inr hb128 =>
      have htb : (a ^^^ b).testBit 7 = false := by
        rw [Nat.testBit_xor, testBit7_of_ge (by omega) ha, testBit7_of_ge (by omega) hb]
        rfl
      have : a ^^^ b < 128 := lt128_of_testBit7 htb (xor_lt_256 ha hb)
      simp [ha128, hb128, this]

theorem xtime_xor {a b : Nat} (ha : a < 256) (hb : b < 256) :
    xtime (a ^^^ b) = xtime a ^^^ xtime b := by
  rw [xtime_eq _ (xor_lt_256 ha hb), xtime_eq _ ha, xtime_eq _ hb, double_xor]
  have h256 : (256 : Nat) = 2 ^ 8 := by norm_num
  rw [h256, xor_mod_two_pow, ite128_xor ha hb]
  exact xor4 _ _ _ _

theorem allB_spec {f : Nat → Bool} : ∀ n, allB f n = true → ∀ i, i < n → f i = true := by
  intro n
  induction n with
  | zero => intro _ i hi; omega
  | succ m ih =>
    intro h i hi
    have h' := h
    unfold allB at h'
    rcases Bool.and_eq_true_iff.mp h' with ⟨h1, h2⟩
    rcases Nat.lt_succ_iff_lt_or_eq.mp hi with hlt | heq
    · exact ih h2 i hlt
    · exact heq ▸ h1

theorem gmulAux_lt : ∀ n (a b : Nat), a < 256 → gmulAux a b n < 256 := by
  intro n
  induction n with
  | zero => intro a b _; unfold gmulAux; omega
  | succ m ih =>
    intro a b ha
    unfold gmulAux
    apply xor_lt_256 _ (ih _ _ (xtime_lt ha))
    split <;> omega

theorem gmul_lt {a : Nat} (b : Nat) (ha : a < 256) : gmul a b < 256 :=
  gmulAux_lt 8 a b ha

theorem gmulAux_zero_left : ∀ n b, gmulAux 0 b n = 0 := by
  intro n
  induction n with
  | zero => intro b; rfl
  | succ m ih =>
    intro b
    unfold gmulAux
    have hx : xtime 0 = 0 := rfl
    rw [hx, ih]
    split <;> rfl

theorem gmul_zero_left (b : Nat) : gmul 0 b = 0 := gmulAux_zero_left 8 b

theorem gmulAux_zero_right : ∀ n a, gmulAux a 0 n = 0 := by
  intro n
  induction n with
  | zero => intro a; rfl
  | succ m ih =>
    intro a
    unfold gmulAux
    rw [ih]
    simp

theorem gmul_zero_right (a : Nat) : gmul a 0 = 0 := gmulAux_zero_right 8 a

theorem gmulAux_xor_left :
    ∀ n b {a1 a2 : Nat}, a1 < 256 → a2 < 256 →
      gmulAux (a1 ^^^ a2) b n = gmulAux a1 b n ^^^ gmulAux a2 b n := by
  intro n
  induction n with
  | zero => intro b a1 a2 _ _; simp [gmulAux]
  | succ m ih =>
    intro b a1 a2 h1 h2
    unfold gmulAux
    rw [xtime_xor h1 h2, ih (b / 2) (xtime_lt h1) (xtime_lt h2), xor4]
    congr 1
    split <;> simp

theorem gmul_xor_left {a1 a2 : Nat} (b : Nat) (h1 : a1 < 256) (h2 : a2 < 256) :
    gmul (a1 ^^^ a2) b = gmul a1 b ^^^ gmul a2 b :=
  gmulAux_xor_left 8 b h1 h2

theorem gmulAux_xor_right :
    ∀ n a b1 b2, gmulAux a (b1 ^^^ b2) n = gmulAux a b1 n ^^^ gmulAux a b2 n := by
  intro n
  induction n with
  | zero => intro a b1 b2; simp [gmulAux]
  | succ m ih =>
    intro a b1 b2
    unfold gmulAux
    rw [xor_mod_two, xor_div_two, ih, xor4]
    congr 1
    rcases Nat.mod_two_eq_zero_or_one b1 with hb1 | hb1 <;>
      rcases Nat.mod_two_eq_zero_or_one b2 with hb2 | hb2 <;>
      simp [hb1, hb2]

theorem gmul_xor_right (a : Nat) (b1 b2 : Nat) :
    gmul a (b1 ^^^ b2) = gmul a b1 ^^^ gmul a b2 :=
  gmulAux_xor_right 8 a b1 b2

theorem decompBit_bool :
    allB (fun i => allB (fun b => (b &&& 2 ^ i == 0) || (b &&& 2 ^ i == 2 ^ i)) 256) 8 = true := by
  decide

theorem decompBit {i b : Nat} (hi : i < 8) (hb : b < 256) :
    b &&& 2 ^ i = 0 ∨ b &&& 2 ^ i = 2 ^ i := by
  have h1 := allB_spec 8 decompBit_bool i hi
  have h2 := allB_spec 256 h1 b hb
  rcases Bool.or_eq_true_iff.mp h2 with h | h
  · exact Or.inl (eq_of_beq h)
  · exact Or.inr (eq_of_beq h)

theorem decomp_bool :
    allB (fun b =>
      b == (b &&& 2 ^ 0 ^^^ (b &&& 2 ^ 1 ^^^ (b &&& 2 ^ 2 ^^^ (b &&& 2 ^ 3 ^^^
        (b &&& 2 ^ 4 ^^^ (b &&& 2 ^ 5 ^^^ (b &&& 2 ^ 6 ^^^ b &&& 2 ^ 7)))))))) 256 = true := by
  decide

theorem byteInduction {P : Nat → Prop} (h0 : P 0) (hbasis : ∀ i, i < 8 → P (2 ^ i))
    (hxor : ∀ u v, u < 256 → v < 256 → P u → P v → P (u ^^^ v)) :
    ∀ b, b < 256 → P b := by
  intro b hb
  have hdec : b = b &&& 2 ^ 0 ^^^ (b &&& 2 ^ 1 ^^^ (b &&& 2 ^ 2 ^^^ (b &&& 2 ^ 3 ^^^
      (b &&& 2 ^ 4 ^^^ (b &&& 2 ^ 5 ^^^ (b &&& 2 ^ 6 ^^^ b &&& 2 ^ 7)))))) :=
    eq_of_beq (allB_spec 256 decomp_bool b hb)
  have hP : ∀ i, i < 8 → P (b &&& 2 ^ i) ∧ b &&& 2 ^ i < 256 := by
    intro i hi
    rcases decompBit hi hb with h | h
    · rw [h]; exact ⟨h0, by omega⟩
    · rw [h]
      refine ⟨hbasis i hi, ?_⟩
      have : (2 : Nat) ^ i ≤ 2 ^ 7 := Nat.pow_le_pow_right (by omega) (by omega)
      omega
  have e0 := hP 0 (by omega); have e1 := hP 1 (by omega)
  have e2 := hP 2 (by omega); have e3 := hP 3 (by omega)
  have e4 := hP 4 (by omega); have e5 := hP 5 (by omega)
  have e6 := hP 6 (by omega); have e7 := hP 7 (by omega)
  rw [hdec]
  have s67 := hxor _ _ e6.2 e7.2 e6.1 e7.1
  have l67 := xor_lt_256 e6.2 e7.2
  have s567 := hxor _ _ e5.2 l67 e5.1 s67
  have l567 := xor_lt_256 e5.2 l67
  have s4567 := hxor _ _ e4.2 l567 e4.1 s567
  have l4567 := xor_lt_256 e4.2 l567
  have s34567 := hxor _ _ e3.2 l4567 e3.1 s4567
  have l34567 := xor_lt_256 e3.2 l4567
  have s234567 := hxor _ _ e2.2 l34567 e2.1 s34567
  have l234567 := xor_lt_256 e2.2 l34567
  have s1234567 := hxor _ _ e1.2 l234567 e1.1 s234567
  have l1234567 := xor_lt_256 e1.2 l234567
  exact hxor _ _ e0.2 l1234567 e0.1 s1234567

theorem comm_basis_bool :
    allB (fun i => allB (fun j => gmul (2 ^ i) (2 ^ j) == gmul (2 ^ j) (2 ^ i)) 8) 8 = true := by
  decide

theorem pow_lt_256 {i : Nat} (hi : i < 8) : 2 ^ i < 256 := by
  have : (2 : Nat) ^ i ≤ 2 ^ 7 := Nat.pow_le_pow_right (by omega) (by omega)
  omega

theorem gmul_comm {a b : Nat} (ha : a < 256) (hb : b < 256) : gmul a b = gmul b a := by
  refine byteInduction (P := fun x => ∀ y, y < 256 → gmul y x = gmul x y) ?_ ?_ ?_ b hb a ha
  · intro y _
    rw [gmul_zero_left, gmul_zero_right]
  · intro j hj
    refine byteInduction (P := fun y => gmul y (2 ^ j) = gmul (2 ^ j) y) ?_ ?_ ?_
    · show gmul 0 (2 ^ j) = gmul (2 ^ j) 0
      rw [gmul_zero_left, gmul_zero_right]
    · intro i hi
      exact eq_of_beq (allB_spec 8 (allB_spec 8 comm_basis_bool i hi) j hj)
    · intro u v hu hv ihu ihv
      have ihu' : gmul u (2 ^ j) = gmul (2 ^ j) u := ihu
      have ihv' : gmul v (2 ^ j) = gmul (2 ^ j) v := ihv
      show gmul (u ^^^ v) (2 ^ j) = gmul (2 ^ j) (u ^^^ v)
      rw [gmul_xor_left _ hu hv, gmul_xor_right, ihu', ihv']
  · intro u v hu hv ihu ihv y hy
    show gmul y (u ^^^ v) = gmul (u ^^^ v) y
    rw [gmul_xor_right, ihu y hy, ihv y hy, ← gmul_xor_left _ hu hv]

theorem assoc_basis_bool :
    allB (fun i => allB (fun j => allB (fun k =>
      gmul (2 ^ i) (gmul (2 ^ j) (2 ^ k)) == gmul (gmul (2 ^ i) (2 ^ j)) (2 ^ k)) 8) 8) 8 = true := by
  decide

theorem gmul_assoc {a b c : Nat} (ha : a < 256) (hb : b < 256) (hc : c < 256) :
    gmul a (gmul b c) = gmul (gmul a b) c := by
  refine byteInduction
    (P := fun x => ∀ y, y < 256 → ∀ z, z < 256 → gmul x (gmul y z) = gmul (gmul x y) z)
    ?_ ?_ ?_ a ha b hb c hc
  · intro y _ z _
    simp [gmul_zero_left]
  · intro i hi
    refine byteInduction
      (P := fun y => ∀ z, z < 256 → gmul (2 ^ i) (gmul y z) = gmul (gmul (2 ^ i) y) z)
      ?_ ?_ ?_
    · intro z _
      simp [gmul_zero_left, gmul_zero_right]
    · intro j hj
      refine byteInduction
        (P := fun z => gmul (2 ^ i) (gmul (2 ^ j) z) = gmul (gmul (2 ^ i) (2 ^ j)) z)
        ?_ ?_ ?_
      · simp [gmul_zero_right]
      · intro k hk
        exact eq_of_beq
          (allB_spec 8 (allB_spec 8 (allB_spec 8 assoc_basis_bool i hi) j hj) k hk)
      · intro u v _ _ ihu ihv
        have ihu' : gmul (2 ^ i) (gmul (2 ^ j) u) = gmul (gmul (2 ^ i) (2 ^ j)) u := ihu
        have ihv' : gmul (2 ^ i) (gmul (2 ^ j) v) = gmul (gmul (2 ^ i) (2 ^ j)) v := ihv
        show gmul (2 ^ i) (gmul (2 ^ j) (u ^^^ v)) = gmul (gmul (2 ^ i) (2 ^ j)) (u ^^^ v)
        rw [gmul_xor_right, gmul_xor_right, ihu', ihv', ← gmul_xor_right]
    · intro u v hu hv ihu ihv z hz
      show gmul (2 ^ i) (gmul (u ^^^ v) z) = gmul (gmul (2 ^ i) (u ^^^ v)) z
      rw [gmul_xor_left _ hu hv, gmul_xor_right, ihu z hz, ihv z hz,
        gmul_xor_right,
        gmul_xor_left _ (gmul_lt _ (pow_lt_256 hi)) (gmul_lt _ (pow_lt_256 hi))]
  · intro u v hu hv ihu ihv y hy z hz
    show gmul (u ^^^ v) (gmul y z) = gmul (gmul (u ^^^ v) y) z
    rw [gmul_xor_left _ hu hv, ihu y hy z hz, ihv y hy z hz,
      gmul_xor_left _ hu hv, gmul_xor_left _ (gmul_lt _ hu) (gmul_lt _ hv)]

theorem gmul_one_bool : allB (fun a => (gmul 1 a == a) && (gmul a 1 == a)) 256 = true := by
  decide

theorem gmul_one_left {a : Nat} (ha : a < 256) : gmul 1 a = a :=
  eq_of_beq (Bool.and_eq_true_iff.mp (allB_spec 256 gmul_one_bool a ha)).1

theorem gmul_one_right {a : Nat} (ha : a < 256) : gmul a 1 = a :=
  eq_of_beq (Bool.and_eq_true_iff.mp (allB_spec 256 gmul_one_bool a ha)).2

theorem foldr_wsum (f : Nat → Nat) : ∀ xs, xs.foldr (fun x acc => f x ^^^ acc) 0 = wsum f xs := by
  intro xs
  induction xs with
  | nil => rfl
  | cons x xs ih => simp [wsum, List.foldr_cons, ih]

theorem wsum_congr {f g : Nat → Nat} : ∀ {xs}, (∀ x ∈ xs, f x = g x) → wsum f xs = wsum g xs := by
  intro xs
  induction xs with
  | nil => intro _; rfl
  | cons x xs ih =>
    intro h
    unfold wsum
    rw [h x (by simp), ih (fun z hz => h z (by simp [hz]))]

theorem xor6 (p q r s t u : Nat) :
    (p ^^^ q ^^^ r) ^^^ (s ^^^ t ^^^ u) = (p ^^^ s) ^^^ (q ^^^ t) ^^^ (r ^^^ u) := by
  rw [xor4 (p ^^^ q) r (s ^^^ t) u, xor4 p q s t]

theorem wsum_split3 (F G H : Nat → Nat) :
    ∀ xs, wsum (fun x => F x ^^^ G x ^^^ H x) xs = wsum F xs ^^^ wsum G xs ^^^ wsum H xs := by
  intro xs
  induction xs with
  | nil => simp [wsum]
  | cons x xs ih =>
    unfold wsum
    rw [ih]
    exact xor6 (F x) (G x) (H x) (wsum F xs) (wsum G xs) (wsum H xs)

theorem wsum_lt {f : Nat → Nat} : ∀ {xs}, (∀ x ∈ xs, f x < 256) → wsum f xs < 256 := by
  intro xs
  induction xs with
  | nil => intro _; unfold wsum; omega
  | cons x xs ih =>
    intro h
    unfold wsum
    exact xor_lt_256 (h x (by simp)) (ih (fun z hz => h z (by simp [hz])))

theorem gmul_wsum (s : Nat) {f : Nat → Nat} :
    ∀ {xs}, (∀ x ∈ xs, f x < 256) → wsum (fun x => gmul (f x) s) xs = gmul (wsum f xs) s := by
  intro xs
  induction xs with
  | nil => unfold wsum; intro _; rw [gmul_zero_left]
  | cons x xs ih =>
    intro h
    unfold wsum
    rw [ih (fun z hz => h z (by simp [hz])),
      ← gmul_xor_left _ (h x (by simp)) (wsum_lt (fun z hz => h z (by simp [hz])))]

theorem evalPoly_lt {s a b x : Nat} (hs : s < 256) (ha : a < 256) (hb : b < 256) :
    evalPoly s a b x < 256 :=
  xor_lt_256 (xor_lt_256 hs (gmul_lt _ ha)) (gmul_lt _ hb)

/-- The central interpolation identity: any coefficient family `c` whose first
three power moments over `xs` are (1, 0, 0) recovers the constant term of every
degree-2 polynomial from its values on `xs`. -/
theorem interp_position (xs : List Nat) (c : Nat → Nat)
    (hc : ∀ x ∈ xs, c x < 256) (hxs : ∀ x ∈ xs, x < 256)
    (s a b : Nat) (hs : s < 256) (ha : a < 256) (hb : b < 256)
    (hm0 : wsum c xs = 1)
    (hm1 : wsum (fun x => gmul (c x) x) xs = 0)
    (hm2 : wsum (fun x => gmul (c x) (gmul x x)) xs = 0) :
    wsum (fun x => gmul (c x) (evalPoly s a b x)) xs = s := by
  have step1 : wsum (fun x => gmul (c x) (evalPoly s a b x)) xs
      = wsum (fun x => gmul (c x) s ^^^ gmul (gmul (c x) x) a ^^^ gmul (gmul (c x) (gmul x x)) b) xs := by
    apply wsum_congr
    intro x hx
    unfold evalPoly
    rw [gmul_xor_right, gmul_xor_right,
      gmul_comm ha (hxs x hx), gmul_assoc (hc x hx) (hxs x hx) ha,
      gmul_comm hb (gmul_lt _ (hxs x hx)),
      gmul_assoc (hc x hx) (gmul_lt _ (hxs x hx)) hb]
  rw [step1, wsum_split3,
    gmul_wsum s hc,
    gmul_wsum a (fun x hx => gmul_lt _ (hc x hx)),
    gmul_wsum b (fun x hx => gmul_lt _ (hc x hx)),
    hm0, hm1, hm2, gmul_one_left hs, gmul_zero_left, Nat.xor_zero, gmul_zero_left, Nat.xor_zero]

theorem moments_sublists_bool :
    (([1, 2, 3, 4, 5] : List Nat).sublists.all
      (fun xs => decide (xs.length < 3) || momentsOk xs)) = true := by
  decide

theorem moments_of_sublist {xs : List Nat} (hsub : xs.Sublist [1, 2, 3, 4, 5])
    (hlen : 3 ≤ xs.length) : momentsOk xs = true := by
  have hmem : xs ∈ ([1, 2, 3, 4, 5] : List Nat).sublists := List.mem_sublists.mpr hsub
  have h := List.all_eq_true.mp moments_sublists_bool xs hmem
  rcases Bool.or_eq_true_iff.mp h with h | h
  · have := of_decide_eq_true h
    omega
  · exact h

theorem lagCoeff_lt {xs : List Nat} (hxs : ∀ x ∈ xs, x < 256) (xi : Nat) :
    lagCoeff xs xi < 256 := by
  unfold lagCoeff
  have key : ∀ l : List Nat, (∀ x ∈ l, x < 256) →
      l.foldr (fun xj acc => gmul (gdiv xj (xj ^^^ xi)) acc) 1 < 256 := by
    intro l hl
    induction l with
    | nil => simp
    | cons z l ih =>
      simp only [List.foldr_cons]
      exact gmul_lt _ (gmul_lt _ (hl z (by simp)))
  exact key _ (fun x hx => hxs x (List.mem_filter.mp hx).1)

theorem shareAt_x (dek c1 c2 : List Nat) (xv : Nat) : (shareAt dek c1 c2 xv).x = xv := rfl

theorem shareAt_y_length {dek c1 c2 : List Nat} (xv : Nat)
    (h1 : c1.length = dek.length) (h2 : c2.length = dek.length) :
    (shareAt dek c1 c2 xv).y.length = dek.length := by
  simp [shareAt, List.length_zip, h1, h2]

theorem shareAt_y_getD {dek c1 c2 : List Nat} (xv : Nat)
    (h1 : c1.length = dek.length) (h2 : c2.length = dek.length)
    {n : Nat} (hn : n < dek.length) :
    (shareAt dek c1 c2 xv).y.getD n 0 =
      evalPoly (dek.getD n 0) (c1.getD n 0) (c2.getD n 0) xv := by
  have hny : n < (shareAt dek c1 c2 xv).y.length := by
    rw [shareAt_y_length xv h1 h2]; exact hn
  have hy : (shareAt dek c1 c2 xv).y =
      (dek.zip (c1.zip c2)).map (fun p => evalPoly p.1 p.2.1 p.2.2 xv) := rfl
  rw [List.getD_eq_getElem _ _ hny, List.getD_eq_getElem _ _ hn,
    List.getD_eq_getElem _ _ (show n < c1.length by omega),
    List.getD_eq_getElem _ _ (show n < c2.length by omega)]
  simp only [hy, List.getElem_map, List.getElem_zip]

theorem interp_eval (xs dek c1 c2 : List Nat)
    (hxs : ∀ x ∈ xs, x < 256)
    (hlen1 : c1.length = dek.length) (hlen2 : c2.length = dek.length)
    (hdek : ∀ v ∈ dek, v < 256) (hc1 : ∀ v ∈ c1, v < 256) (hc2 : ∀ v ∈ c2, v < 256)
    (hm : momentsOk xs = true) :
    interpolate (xs.map (shareAt dek c1 c2)) = dek := by
  unfold momentsOk at hm
  rcases Bool.and_eq_true_iff.mp hm with ⟨hm01, hm2b⟩
  rcases Bool.and_eq_true_iff.mp hm01 with ⟨hm0b, hm1b⟩
  have hm0 : wsum (lagCoeff xs) xs = 1 := eq_of_beq hm0b
  have hm1 : wsum (fun x => gmul (lagCoeff xs x) x) xs = 0 := eq_of_beq hm1b
  have hm2 : wsum (fun x => gmul (lagCoeff xs x) (gmul x x)) xs = 0 := eq_of_beq hm2b
  have hxsm : (xs.map (shareAt dek c1 c2)).map (fun s2 => s2.x) = xs := by
    rw [List.map_map]
    have : ((fun s2 => Share.x s2) ∘ shareAt dek c1 c2) = id := by
      funext z; rfl
    rw [this, List.map_id]
  have hxne : xs ≠ [] := by
    intro h
    rw [h] at hm0
    simp [wsum] at hm0
  have hhl : headLen (xs.map (shareAt dek c1 c2)) = dek.length := by
    cases xs with
    | nil => exact absurd rfl hxne
    | cons x0 xs' =>
      show (shareAt dek c1 c2 x0).y.length = dek.length
      exact shareAt_y_length x0 hlen1 hlen2
  unfold interpolate
  rw [hxsm, hhl]
  apply List.ext_getElem
  · simp
  · intro n h1n h2n
    rw [List.getElem_map, List.getElem_range]
    rw [List.foldr_map, foldr_wsum (fun x =>
      gmul (lagCoeff xs (shareAt dek c1 c2 x).x) ((shareAt dek c1 c2 x).y.getD n 0))]
    have hn : n < dek.length := h2n
    have hstep : wsum (fun x =>
        gmul (lagCoeff xs (shareAt dek c1 c2 x).x) ((shareAt dek c1 c2 x).y.getD n 0)) xs
        = wsum (fun x => gmul (lagCoeff xs x)
            (evalPoly (dek.getD n 0) (c1.getD n 0) (c2.getD n 0) x)) xs := by
      apply wsum_congr
      intro x hx
      rw [shareAt_x, shareAt_y_getD x hlen1 hlen2 hn]
    rw [hstep]
    have hs' : dek.getD n 0 < 256 := by
      rw [List.getD_eq_getElem _ _ hn]
      exact hdek _ (List.getElem_mem hn)
    have ha' : c1.getD n 0 < 256 := by
      rw [List.getD_eq_getElem _ _ (show n < c1.length by omega)]
      exact hc1 _ (List.getElem_mem (by omega))
    have hb' : c2.getD n 0 < 256 := by
      rw [List.getD_eq_getElem _ _ (show n < c2.length by omega)]
      exact hc2 _ (List.getElem_mem (by omega))
    rw [interp_position xs (lagCoeff xs) (fun x _ => lagCoeff_lt hxs x) hxs _ _ _
      hs' ha' hb' hm0 hm1 hm2, List.getD_eq_getElem _ _ hn]

/-- C1: for every secret, `split_dek` (with any dealer coefficients) produces
exactly 5 shares with threshold 3, and `reconstruct_dek` applied to any
sub-collection of at least 3 of those shares returns exactly the secret. -/
theorem claim_C1 (dek c1 c2 : List Nat)
    (hlen1 : c1.length = dek.length) (hlen2 : c2.length = dek.length)
    (hdek : ∀ v ∈ dek, v < 256) (hc1 : ∀ v ∈ c1, v < 256) (hc2 : ∀ v ∈ c2, v < 256) :
    (split_dek dek c1 c2).length = 5 ∧
      ∀ sub : List Share, sub.Sublist (split_dek dek c1 c2) → 3 ≤ sub.length →
        reconstruct_dek sub = Except.ok dek := by
  constructor
  · simp [split_dek]
  · intro sub hsub hlen
    have hsplit : split_dek dek c1 c2 = ([1, 2, 3, 4, 5] : List Nat).map (shareAt dek c1 c2) := rfl
    rw [hsplit] at hsub
    rcases List.sublist_map_iff.mp hsub with ⟨xs, hxsub, rfl⟩
    have hxs256 : ∀ x ∈ xs, x < 256 := by
      intro x hx
      have hmem := hxsub.subset hx
      simp at hmem
      rcases hmem with h | h | h | h | h <;> omega
    have hxlen : 3 ≤ xs.length := by
      rw [List.length_map] at hlen
      exact hlen
    have hxsm : (xs.map (shareAt dek c1 c2)).map (fun s2 => s2.x) = xs := by
      rw [List.map_map]
      have hcomp : ((fun s2 => Share.x s2) ∘ shareAt dek c1 c2) = id := by
        funext z; rfl
      rw [hcomp, List.map_id]
    have hnd : ((xs.map (shareAt dek c1 c2)).map (fun sh => sh.x)).Nodup := by
      rw [hxsm]
      exact List.Nodup.sublist hxsub (by decide)
    have hsl : sameLengths (xs.map (shareAt dek c1 c2)) = true := by
      cases xs with
      | nil => rfl
      | cons x0 xs' =>
        show (xs'.map (shareAt dek c1 c2)).all
          (fun s2 => s2.y.length == (shareAt dek c1 c2 x0).y.length) = true
        apply List.all_eq_true.mpr
        intro s2 hs2
        rcases List.mem_map.mp hs2 with ⟨z, hz, rfl⟩
        rw [shareAt_y_length z hlen1 hlen2, shareAt_y_length x0 hlen1 hlen2]
        simp
    have hmom : momentsOk xs = true := moments_of_sublist hxsub hxlen
    unfold reconstruct_dek
    rw [if_pos ⟨hlen, hnd, hsl⟩]
    exact congrArg Except.ok (interp_eval xs dek c1 c2 hxs256 hlen1 hlen2 hdek hc1 hc2 hmom)

/-- Witness for C1: a concrete 32-byte key, split with concrete dealer
coefficients; the sub-collection of shares 1, 3, 5 reconstructs the key. -/
theorem claim_C1_witness :
    (split_dek dek32 c1w c2w).length = 5 ∧
      reconstruct_dek
        [shareAt dek32 c1w c2w 1, shareAt dek32 c1w c2w 3, shareAt dek32 c1w c2w 5] =
        Except.ok dek32 := by
  have h := claim_C1 dek32 c1w c2w (by decide) (by decide) (by decide) (by decide) (by decide)
  exact ⟨h.1, h.2 _ (by decide) (by decide)⟩

/-- C2: reconstruction fails (surfacing the error, returning no secret) when
fewer than 3 shares are supplied, when x-coordinates collide, or when y-vector
lengths mismatch. -/
theorem claim_C2 (shares : List Share)
    (h : shares.length < 3 ∨ ¬ (shares.map (fun sh => sh.x)).Nodup ∨ sameLengths shares ≠ true) :
    reconstruct_dek shares = Except.error "Failed to recover DEK" := by
  unfold reconstruct_dek
  rw [if_neg]
  intro hc
  rcases hc with ⟨h1, h2, h3⟩
  rcases h with h | h | h
  · omega
  · exact h h2
  · exact h h3

/-- Witness for C2: three shares with a colliding x-coordinate are rejected. -/
theorem claim_C2_witness :
    reconstruct_dek [⟨1, [10]⟩, ⟨1, [11]⟩, ⟨2, [12]⟩] = Except.error "Failed to recover DEK" :=
  claim_C2 _ (by decide)

theorem keystream_length (key nonce : List Nat) (n : Nat) : (keystream key nonce n).length = n := by
  simp [keystream]

theorem xorBytes_length (l ks : List Nat) :
    (xorBytes l ks).length = min l.length ks.length := by
  simp [xorBytes]

theorem computeTag_length (key nonce ct : List Nat) : (computeTag key nonce ct).length = 16 := by
  simp [computeTag]

theorem xorBytes_invol : ∀ (p ks : List Nat), p.length ≤ ks.length →
    xorBytes (xorBytes p ks) ks = p := by
  intro p
  induction p with
  | nil => intro ks _; rfl
  | cons a p' ih =>
    intro ks hks
    cases ks with
    | nil => simp at hks
    | cons k ks' =>
      show (a ^^^ k ^^^ k) :: xorBytes (xorBytes p' ks') ks' = a :: p'
      rw [Nat.xor_assoc, Nat.xor_self, Nat.xor_zero, ih ks' (by simpa using hks)]

/-- The ciphertext-with-tag produced by encryption, decomposed. -/
theorem encrypt_data_parts (key plaintext nonce : List Nat) :
    encrypt_data key plaintext nonce =
      (nonce, xorBytes plaintext (keystream key nonce plaintext.length) ++
        computeTag key nonce (xorBytes plaintext (keystream key nonce plaintext.length))) := rfl

theorem decrypt_encrypt (key plaintext nonce : List Nat) :
    decrypt_data key nonce (encrypt_data key plaintext nonce).2 = Except.ok plaintext := by
  have hctlen : (xorBytes plaintext (keystream key nonce plaintext.length)).length
      = plaintext.length := by
    rw [xorBytes_length, keystream_length]
    omega
  set ct := xorBytes plaintext (keystream key nonce plaintext.length) with hct
  set tag := computeTag key nonce ct with htag
  have hdata : (encrypt_data key plaintext nonce).2 = ct ++ tag := rfl
  have htaglen : tag.length = 16 := computeTag_length key nonce ct
  have hlen : (ct ++ tag).length = ct.length + 16 := by
    rw [List.length_append, htaglen]
  unfold decrypt_data
  rw [hdata, hlen]
  have hsub : ct.length + 16 - 16 = ct.length := by omega
  rw [if_neg (by omega), hsub, List.take_left, List.drop_left, if_pos htag, hctlen, hct,
    xorBytes_invol plaintext _ (by rw [keystream_length])]

/-- C3: for every 32-byte key and plaintext, decrypting the (nonce, ciphertext)
pair produced by encryption (whatever nonce was drawn internally) returns
exactly the plaintext. -/
theorem claim_C3 (key plaintext nonce : List Nat)
    (hkey : key.length = 32) (hnonce : nonce.length = 24) :
    decrypt_data key (encrypt_data key plaintext nonce).1 (encrypt_data key plaintext nonce).2 =
      Except.ok plaintext :=
  decrypt_encrypt key plaintext nonce

/-- Witness for C3 at a concrete key, nonce and plaintext. -/
theorem claim_C3_witness :
    decrypt_data keyW (encrypt_data keyW [104, 101, 108, 108, 111] nonceW).1
      (encrypt_data keyW [104, 101, 108, 108, 111] nonceW).2 =
      Except.ok [104, 101, 108, 108, 111] :=
  claim_C3 keyW [104, 101, 108, 108, 111] nonceW (by decide) (by decide)

/-- C4: whenever authentication-tag verification fails on `decrypt_data`, the
call fails with the integrity error and returns no plaintext bytes. -/
theorem claim_C4 (key iv data plaintext : List Nat) (hlen : 16 ≤ data.length)
    (htag : data.drop (data.length - 16) ≠ computeTag key iv (data.take (data.length - 16))) :
    decrypt_data key iv data = Except.error "decryption failure!" ∧
      decrypt_data key iv data ≠ Except.ok plaintext := by
  have herr : decrypt_data key iv data = Except.error "decryption failure!" := by
    unfold decrypt_data
    rw [if_neg (by omega), if_neg htag]
  exact ⟨herr, fun h => by rw [herr] at h; exact Except.noConfusion h⟩

/-- Witness for C4: a single flipped ciphertext bit fails tag verification. -/
theorem claim_C4_witness :
    decrypt_data keyW nonceW tamperedW = Except.error "decryption failure!" ∧
      decrypt_data keyW nonceW tamperedW ≠ Except.ok [104, 101, 108, 108, 111] :=
  claim_C4 keyW nonceW tamperedW [104, 101, 108, 108, 111] (by decide) (by decide)

theorem hmLookup_insert_self : ∀ (m : KVStore) (k : String) (v : Secret),
    hmLookup (hmInsert m k v) k = some v := by
  intro m k v
  induction m with
  | nil => simp [hmInsert, hmLookup]
  | cons e rest ih =>
    obtain ⟨k', v'⟩ := e
    unfold hmInsert
    by_cases h : k' = k
    · simp [h, hmLookup]
    · simp only [if_neg h]
      unfold hmLookup
      rw [if_neg h, ih]

theorem hmLookup_insert_other : ∀ (m : KVStore) (k k2 : String) (v : Secret), k2 ≠ k →
    hmLookup (hmInsert m k v) k2 = hmLookup m k2 := by
  intro m k k2 v hne
  induction m with
  | nil =>
    show hmLookup [(k, v)] k2 = hmLookup [] k2
    unfold hmLookup
    rw [if_neg (fun h => hne h.symm)]
    rfl
  | cons e rest ih =>
    obtain ⟨k', v'⟩ := e
    show hmLookup (if k' = k then (k, v) :: rest else (k', v') :: hmInsert rest k v) k2
        = hmLookup ((k', v') :: rest) k2
    by_cases h : k' = k
    · rw [if_pos h]
      show (if k = k2 then some v else hmLookup rest k2)
          = if k' = k2 then some v' else hmLookup rest k2
      rw [if_neg (fun h2 => hne h2.symm), if_neg (fun h2 => hne (h2.symm.trans h))]
    · rw [if_neg h]
      show (if k' = k2 then some v' else hmLookup (hmInsert rest k v) k2)
          = if k' = k2 then some v' else hmLookup rest k2
      by_cases h2 : k' = k2
      · rw [if_pos h2, if_pos h2]
      · rw [if_neg h2, if_neg h2, ih]

/-- C10: `set_secret` always succeeds, returning the insert-or-replace of the
record; afterwards `get_secret` on that name yields exactly the stored record
while every other name is unchanged. -/
theorem claim_C10 (store : KVStore) (key k' : String) (iv ev : List Nat) :
    set_secret store key iv ev = Except.ok (hmInsert store key ⟨iv, ev⟩) ∧
      get_secret (hmInsert store key ⟨iv, ev⟩) key = some ⟨iv, ev⟩ ∧
      (k' ≠ key → get_secret (hmInsert store key ⟨iv, ev⟩) k' = get_secret store k') :=
  ⟨rfl, hmLookup_insert_self store key ⟨iv, ev⟩,
    fun h => hmLookup_insert_other store key k' ⟨iv, ev⟩ h⟩

/-- Witness for C10 on a concrete store. -/
theorem claim_C10_witness :
    set_secret [("alpha", ⟨[9], [8]⟩)] "doc" [1] [2] =
        Except.ok (hmInsert [("alpha", ⟨[9], [8]⟩)] "doc" ⟨[1], [2]⟩) ∧
      get_secret (hmInsert [("alpha", ⟨[9], [8]⟩)] "doc" ⟨[1], [2]⟩) "doc" = some ⟨[1], [2]⟩ ∧
      get_secret (hmInsert [("alpha", ⟨[9], [8]⟩)] "doc" ⟨[1], [2]⟩) "alpha" =
        get_secret [("alpha", ⟨[9], [8]⟩)] "alpha" := by
  refine ⟨(claim_C10 _ _ "alpha" _ _).1, (claim_C10 _ "doc" "alpha" _ _).2.1, ?_⟩
  exact (claim_C10 [("alpha", ⟨[9], [8]⟩)] "doc" "alpha" [1] [2]).2.2 (by decide)

theorem decNat_enc (n : Nat) (r : List Nat) : decNat (encNat n ++ r) = some (n, r) := by
  induction n with
  | zero => rfl
  | succ m ih =>
    have hs : encNat (m + 1) ++ r = 1 :: (encNat m ++ r) := by
      simp [encNat, List.replicate_succ]
    rw [hs]
    unfold decNat
    rw [ih]

theorem decBytes_enc (l r : List Nat) : decBytes (encBytes l ++ r) = some (l, r) := by
  unfold decBytes encBytes
  rw [List.append_assoc, decNat_enc]
  show (if l.length ≤ (l ++ r).length then
    some (List.take l.length (l ++ r), List.drop l.length (l ++ r)) else none) = some (l, r)
  rw [if_pos (by simp), List.take_left, List.drop_left]

theorem str_round (s : String) : String.mk ((s.data.map Char.toNat).map Char.ofNat) = s := by
  rw [List.map_map]
  have h : (Char.ofNat ∘ Char.toNat) = id := funext Char.ofNat_toNat
  rw [h, List.map_id]

theorem decEntries_enc : ∀ (store : KVStore) (r : List Nat),
    decEntries store.length (encEntries store ++ r) = some (store, r) := by
  intro store
  induction store with
  | nil => intro r; rfl
  | cons e rest ih =>
    intro r
    obtain ⟨name, sec⟩ := e
    show decEntries (rest.length + 1)
      ((encBytes (name.data.map Char.toNat) ++ encBytes sec.iv ++ encBytes sec.encrypted_value ++
        encEntries rest) ++ r) = _
    unfold decEntries
    rw [List.append_assoc, List.append_assoc, List.append_assoc]
    simp only [decBytes_enc, ih r, str_round]

theorem deserialize_serialize (store : KVStore) :
    deserializeStore (serializeStore store) = Except.ok store := by
  have h2 : decEntries store.length (encEntries store) = some (store, []) := by
    have h3 := decEntries_enc store []
    rwa [List.append_nil] at h3
  unfold deserializeStore serializeStore
  simp only [decNat_enc, h2]

/-- C5: saving a populated store and loading the file into a fresh empty store
reproduces the original name→record mapping exactly. -/
theorem claim_C5 (store : KVStore) (fs : FS) (path : String) (key nonce : List Nat) (fs' : FS)
    (hkey : key.length = 32) (hnonce : nonce.length = 24)
    (hsave : save_to_file_encrypted store fs path key nonce = Except.ok fs') :
    load_from_file_encrypted [] fs' path key = Except.ok store := by
  have hfs' : fs' = fsWrite fs path
      ((encrypt_data key (serializeStore store) nonce).1 ++
        (encrypt_data key (serializeStore store) nonce).2) := by
    unfold save_to_file_encrypted at hsave
    cases hfp : fs path with
    | absent => rw [hfp] at hsave; exact (Except.ok.inj hsave).symm
    | denied => rw [hfp] at hsave; exact absurd hsave (by simp)
    | present b => rw [hfp] at hsave; exact (Except.ok.inj hsave).symm
  set ct := (encrypt_data key (serializeStore store) nonce).2 with hct
  have henc1 : (encrypt_data key (serializeStore store) nonce).1 = nonce := rfl
  have hbytes : fs' path = FileState.present (nonce ++ ct) := by
    rw [hfs']
    simp [fsWrite, henc1]
  unfold load_from_file_encrypted
  rw [hbytes]
  have hctlen : ¬ ((nonce ++ ct).length < 24) := by
    rw [List.length_append, hnonce]
    omega
  show (if (nonce ++ ct).length < 24 then Except.error "read failed"
    else match decrypt_data key (List.take 24 (nonce ++ ct)) (List.drop 24 (nonce ++ ct)) with
      | Except.error e => Except.error e
      | Except.ok data =>
        match deserializeStore data with
        | Except.error e => Except.error e
        | Except.ok persisted => Except.ok persisted) = Except.ok store
  rw [if_neg hctlen]
  have htake : (nonce ++ ct).take 24 = nonce := by
    rw [← hnonce, List.take_left]
  have hdrop : (nonce ++ ct).drop 24 = ct := by
    rw [← hnonce, List.drop_left]
  rw [htake, hdrop, hct, decrypt_encrypt key (serializeStore store) nonce]
  show (match deserializeStore (serializeStore store) with
    | Except.error e => Except.error e
    | Except.ok persisted => Except.ok persisted) = Except.ok store
  rw [deserialize_serialize]

/-- Witness for C5: a concrete two-entry store round-trips through a file. -/
theorem claim_C5_witness : load_from_file_encrypted [] fsSavedW "p" keyW = Except.ok storeW :=
  claim_C5 storeW fsAbsent "p" keyW nonceW fsSavedW (by decide) (by decide) rfl

/-- Shared helper: a successful save writes nonce ++ ciphertext at the path. -/
theorem save_ok {store : KVStore} {fs : FS} {path : String} {key nonce : List Nat} {fs' : FS}
    (hsave : save_to_file_encrypted store fs path key nonce = Except.ok fs') :
    fs' = fsWrite fs path
      ((encrypt_data key (serializeStore store) nonce).1 ++
        (encrypt_data key (serializeStore store) nonce).2) := by
  unfold save_to_file_encrypted at hsave
  cases hfp : fs path with
  | absent => rw [hfp] at hsave; exact (Except.ok.inj hsave).symm
  | denied => rw [hfp] at hsave; exact absurd hsave (by simp)
  | present b => rw [hfp] at hsave; exact (Except.ok.inj hsave).symm

/-- Counterexample to C6: on a file that exists but cannot be opened
(permission denied), the source's `Err(_) => return Ok(())` arm silently
succeeds with the store unchanged, instead of surfacing a persistence error. -/
theorem claim_C6_cex :
    load_from_file_encrypted storeW fsDeniedW "p" keyW = Except.ok storeW := rfl

/-- C6 (amended): every `File::open` failure — absent or unreadable — is
treated as a no-op success leaving the map unchanged; only failures after a
successful open (file shorter than the 24-byte nonce) surface an error. -/
theorem claim_C6 (store : KVStore) (fs : FS) (path : String) (key bytes : List Nat) :
    (fs path = FileState.absent → load_from_file_encrypted store fs path key = Except.ok store) ∧
      (fs path = FileState.denied → load_from_file_encrypted store fs path key = Except.ok store) ∧
      (fs path = FileState.present bytes → bytes.length < 24 →
        load_from_file_encrypted store fs path key = Except.error "read failed") := by
  refine ⟨?_, ?_, ?_⟩
  · intro h
    unfold load_from_file_encrypted
    rw [h]
  · intro h
    unfold load_from_file_encrypted
    rw [h]
  · intro h hlen
    unfold load_from_file_encrypted
    rw [h]
    show (if bytes.length < 24 then Except.error "read failed" else _) = _
    rw [if_pos hlen]

/-- Witness for C6 at concrete paths covering all three open outcomes. -/
theorem claim_C6_witness :
    load_from_file_encrypted storeW fsMixedW "gone" keyW = Except.ok storeW ∧
      load_from_file_encrypted storeW fsMixedW "locked" keyW = Except.ok storeW ∧
      load_from_file_encrypted storeW fsMixedW "short" keyW = Except.error "read failed" :=
  ⟨(claim_C6 storeW fsMixedW "gone" keyW []).1 (by decide),
    (claim_C6 storeW fsMixedW "locked" keyW []).2.1 (by decide),
    (claim_C6 storeW fsMixedW "short" keyW [1, 2, 3]).2.2 (by decide) (by decide)⟩

/-- C7: when the file is present, a successful load replaces the whole
in-memory map with the deserialized file contents, independently of the prior
store state; a decryption failure is surfaced, never an empty store. -/
theorem claim_C7 (store store2 : KVStore) (fs : FS) (path : String)
    (key bytes data : List Nat) (m st' : KVStore) (e : String)
    (hfs : fs path = FileState.present bytes) (hble : 24 ≤ bytes.length) :
    (decrypt_data key (bytes.take 24) (bytes.drop 24) = Except.ok data →
      deserializeStore data = Except.ok m →
      (load_from_file_encrypted store fs path key = Except.ok m ∧
        (load_from_file_encrypted store fs path key = Except.ok st' → st' = m) ∧
        load_from_file_encrypted store2 fs path key = Except.ok m)) ∧
    (decrypt_data key (bytes.take 24) (bytes.drop 24) = Except.error e →
      load_from_file_encrypted store fs path key = Except.error e) := by
  have hload : ∀ st : KVStore, load_from_file_encrypted st fs path key =
      match decrypt_data key (bytes.take 24) (bytes.drop 24) with
      | Except.error e2 => Except.error e2
      | Except.ok d =>
        match deserializeStore d with
        | Except.error e2 => Except.error e2
        | Except.ok persisted => Except.ok persisted := by
    intro st
    unfold load_from_file_encrypted
    rw [hfs]
    show (if bytes.length < 24 then Except.error "read failed"
      else match decrypt_data key (List.take 24 bytes) (List.drop 24 bytes) with
        | Except.error e2 => Except.error e2
        | Except.ok d =>
          match deserializeStore d with
          | Except.error e2 => Except.error e2
          | Except.ok persisted => Except.ok persisted) = _
    rw [if_neg (by omega)]
  constructor
  · intro hdec hdes
    have h1 : ∀ st : KVStore, load_from_file_encrypted st fs path key = Except.ok m := by
      intro st
      rw [hload st, hdec]
      show (match deserializeStore data with
        | Except.error e2 => Except.error e2
        | Except.ok persisted => Except.ok persisted) = Except.ok m
      rw [hdes]
    refine ⟨h1 store, ?_, h1 store2⟩
    intro hok
    rw [h1 store] at hok
    exact (Except.ok.inj hok).symm
  · intro hdec
    rw [hload store, hdec]

/-- Witness for C7: loading a concretely saved file replaces a junk prior
store with the file's map. -/
theorem claim_C7_witness :
    load_from_file_encrypted [("junk", ⟨[0], [0]⟩)] fsSavedW "p" keyW = Except.ok storeW :=
  ((claim_C7 [("junk", ⟨[0], [0]⟩)] [] fsSavedW "p" keyW bytesW (serializeStore storeW)
    storeW storeW "e" (by decide) (by decide)).1
    (by
      have h1 : List.take 24 bytesW = nonceW := by decide
      have h2 : List.drop 24 bytesW = (encrypt_data keyW (serializeStore storeW) nonceW).2 := by
        decide
      rw [h1, h2]
      exact decrypt_encrypt keyW (serializeStore storeW) nonceW)
    (deserialize_serialize storeW)).1

/-- C8: the bytes written by save are exactly the 24-byte nonce followed by
the ciphertext of the serialized map, with no further header; the load path
splits them back as first 24 bytes / remainder. -/
theorem claim_C8 (store : KVStore) (fs : FS) (path : String) (key nonce : List Nat) (fs' : FS)
    (hnonce : nonce.length = 24)
    (hsave : save_to_file_encrypted store fs path key nonce = Except.ok fs') :
    fs' path = FileState.present
        (nonce ++ (encrypt_data key (serializeStore store) nonce).2) ∧
      (nonce ++ (encrypt_data key (serializeStore store) nonce).2).take 24 = nonce ∧
      (nonce ++ (encrypt_data key (serializeStore store) nonce).2).drop 24 =
        (encrypt_data key (serializeStore store) nonce).2 := by
  have hfs' := save_ok hsave
  have henc1 : (encrypt_data key (serializeStore store) nonce).1 = nonce := rfl
  refine ⟨?_, ?_, ?_⟩
  · rw [hfs']
    simp [fsWrite, henc1]
  · rw [← hnonce, List.take_left]
  · rw [← hnonce, List.drop_left]

/-- Witness for C8 at the concrete saved file. -/
theorem claim_C8_witness :
    fsSavedW "p" = FileState.present
        (nonceW ++ (encrypt_data keyW (serializeStore storeW) nonceW).2) ∧
      (nonceW ++ (encrypt_data keyW (serializeStore storeW) nonceW).2).take 24 = nonceW ∧
      (nonceW ++ (encrypt_data keyW (serializeStore storeW) nonceW).2).drop 24 =
        (encrypt_data keyW (serializeStore storeW) nonceW).2 :=
  claim_C8 storeW fsAbsent "p" keyW nonceW fsSavedW (by decide) rfl

/-- Counterexample to C9: a share with an empty y-vector encodes to a single
byte, which `from_bytes` rejects — so the decode-encode round trip fails for
it, contradicting the claim's universal round-trip. -/
theorem claim_C9_cex :
    from_bytes (to_bytes ⟨1, []⟩) = Except.error "Not enough data to form a Share" := rfl

/-- C9 (amended): the encoding is exactly one x byte plus one byte per y
entry; the round trip holds for every share with a nonempty y-vector; and
`from_bytes` rejects every input shorter than 2 bytes. -/
theorem claim_C9 (s : Share) (bs : List Nat) (hy : s.y ≠ []) (hbs : bs.length < 2) :
    to_bytes s = s.x :: s.y ∧ (to_bytes s).length = 1 + s.y.length ∧
      from_bytes (to_bytes s) = Except.ok s ∧
      from_bytes bs = Except.error "Not enough data to form a Share" := by
  refine ⟨rfl, by simp [to_bytes]; omega, ?_, ?_⟩
  · unfold from_bytes to_bytes
    rw [if_neg]
    · rfl
    · simp only [List.length_cons]
      intro hlt
      have hz : s.y.length = 0 := by omega
      exact hy (List.length_eq_zero.mp hz)
  · unfold from_bytes
    rw [if_pos hbs]

/-- Witness for C9 at a concrete share and a concrete short input. -/
theorem claim_C9_witness :
    to_bytes ⟨2, [3]⟩ = 2 :: [3] ∧ (to_bytes ⟨2, [3]⟩).length = 1 + 1 ∧
      from_bytes (to_bytes ⟨2, [3]⟩) = Except.ok ⟨2, [3]⟩ ∧
      from_bytes [7] = Except.error "Not enough data to form a Share" :=
  claim_C9 ⟨2, [3]⟩ [7] (by decide) (by decide)
